import Mathlib

/-!
Verification of the Glücksrad fair-draw engine (src/C++/gluecksrad.cpp).

The C++ core is shallowly embedded here:
* `NameEntry`, rosters as `List NameEntry` (the global `g_entries`);
* the fairness selector `EligibleIndices` / `NormalizeCounters`;
* the CSV codec `LoadCSV` / `SaveCSV` (file contents as `List Char`,
  one character per byte of the underlying stream, the UTF-8 BOM as the
  single character U+FEFF);
* the draw state machine `DrawNextOne` / `ApplyWinnerAndContinue` /
  `FinishRound`, with the two `std::uniform_int_distribution` draws
  modelled as arbitrary natural numbers reduced mod the pool size, and
  the `std::set<int>` batch bookkeeping modelled as sorted duplicate-free
  lists.

C++ `int` counters are modelled as `Int`; `std::stoi`'s `out_of_range`
behaviour is reproduced with an explicit two-to-the-31 range check.
-/

namespace Gluecksrad

/-- `struct NameEntry { std::wstring name; int counter = 0; }`. -/
structure NameEntry where
  name : List Char
  counter : Int
  deriving DecidableEq

/-- Placeholder entry used as the default of out-of-range lookups. -/
def dEntry : NameEntry := ⟨[], 0⟩

/-- The minimum-counter computation shared by `EligibleIndices` and
`NormalizeCounters`: `minC = g_entries[0].counter` followed by a fold of
`std::min` over every entry. Only meaningful on non-empty rosters (the
C++ guards emptiness before running it). -/
def minCounter (es : List NameEntry) : Int :=
  es.foldl (fun m e => min m e.counter) ((es.headD dEntry).counter)

/-- `EligibleIndices` (gluecksrad.cpp:251-260): all indices whose counter
equals the computed minimum; empty roster gives the empty list. -/
def EligibleIndices (es : List NameEntry) : List Nat :=
  if es = [] then []
  else (List.range es.length).filter (fun i => (es.getD i dEntry).counter = minCounter es)

/-- `NormalizeCounters` (gluecksrad.cpp:262-269): if the roster is
non-empty and the minimum counter is strictly positive, subtract it from
every counter; otherwise leave the roster untouched. -/
def NormalizeCounters (es : List NameEntry) : List NameEntry :=
  if es = [] then es
  else if minCounter es > 0 then es.map (fun e => ⟨e.name, e.counter - minCounter es⟩)
  else es

section MinCounterLemmas

lemma foldl_min_le_init (l : List Int) (i : Int) : l.foldl min i ≤ i := by
  induction l generalizing i with
  | nil => simp
  | cons x xs ih =>
    simpa using le_trans (ih (min i x)) (min_le_left i x)

lemma foldl_min_le_of_mem {x : Int} {l : List Int} (i : Int) (hx : x ∈ l) :
    l.foldl min i ≤ x := by
  induction l generalizing i with
  | nil => cases hx
  | cons y ys ih =>
    rcases List.mem_cons.mp hx with h | h
    · subst h
      simpa using le_trans (foldl_min_le_init ys (min i x)) (min_le_right i x)
    · exact ih (min i y) h

lemma foldl_min_attained (l : List Int) (i : Int) :
    l.foldl min i = i ∨ l.foldl min i ∈ l := by
  induction l generalizing i with
  | nil => simp
  | cons x xs ih =>
    rcases ih (min i x) with h | h
    · rcases le_total i x with hle | hle
      · left; rw [List.foldl_cons, h, min_eq_left hle]
      · right
        rw [List.foldl_cons, h, min_eq_right hle]
        exact List.mem_cons_self x xs
    · right
      rw [List.foldl_cons]
      exact List.mem_cons_of_mem x h

lemma minCounter_eq_foldl (es : List NameEntry) :
    minCounter es = (es.map (fun e => e.counter)).foldl min ((es.headD dEntry).counter) := by
  rw [List.foldl_map]
  rfl

lemma minCounter_le {es : List NameEntry} {e : NameEntry} (he : e ∈ es) :
    minCounter es ≤ e.counter := by
  rw [minCounter_eq_foldl]
  exact foldl_min_le_of_mem _ (List.mem_map_of_mem _ he)

lemma minCounter_attained {es : List NameEntry} (h : es ≠ []) :
    ∃ e ∈ es, e.counter = minCounter es := by
  rw [minCounter_eq_foldl]
  rcases foldl_min_attained (es.map (fun e => e.counter)) ((es.headD dEntry).counter) with hc | hc
  · refine ⟨es.headD dEntry, ?_, hc.symm⟩
    cases es with
    | nil => exact absurd rfl h
    | cons a l => simp
  · rcases List.mem_map.mp hc with ⟨e, he, hev⟩
    exact ⟨e, he, hev⟩

lemma getD_mem {es : List NameEntry} {i : Nat} (hi : i < es.length) :
    es.getD i dEntry ∈ es := by
  rw [List.getD_eq_getElem es dEntry hi]
  exact List.getElem_mem hi

end MinCounterLemmas

/-- C2: `EligibleIndices` returns exactly the indices whose counter equals
the roster-wide minimum counter (expressed spec-side: indices whose counter
is less than or equal to every counter in the roster); the empty roster
yields the empty set. -/
theorem eligibleIndices_spec (es : List NameEntry) (i : Nat) :
    i ∈ EligibleIndices es ↔
      i < es.length ∧ ∀ j, j < es.length →
        (es.getD i dEntry).counter ≤ (es.getD j dEntry).counter := by
  unfold EligibleIndices
  by_cases hes : es = []
  · subst hes
    simp
  · simp only [if_neg hes, List.mem_filter, List.mem_range, decide_eq_true_eq]
    constructor
    · rintro ⟨hi, hmin⟩
      refine ⟨hi, fun j hj => ?_⟩
      rw [hmin]
      exact minCounter_le (getD_mem hj)
    · rintro ⟨hi, hle⟩
      refine ⟨hi, le_antisymm ?_ (minCounter_le (getD_mem hi))⟩
      rcases minCounter_attained hes with ⟨e, he, hev⟩
      rcases List.getElem_of_mem he with ⟨j, hj, hje⟩
      have := hle j hj
      rw [List.getD_eq_getElem es dEntry hj, hje] at this
      exact hev ▸ this

/-- C3 counterexample: on the one-entry roster with counter `-1`
(loadable from a CSV row `A;-1`), `NormalizeCounters` is a no-op — it only
subtracts when the minimum is strictly positive — so the minimum counter
after the call is `-1`, not `0` as the claim states. -/
theorem normalizeCounters_neg_counterexample :
    NormalizeCounters [⟨['A'], -1⟩] = [⟨['A'], -1⟩] ∧
      minCounter (NormalizeCounters [⟨['A'], -1⟩]) = -1 := by
  constructor <;> rfl

/-- C3 (amended): for a non-empty roster all of whose counters are
non-negative, `NormalizeCounters` makes the minimum counter exactly `0`
(some counter is `0` and all are non-negative), and it always preserves
every pairwise counter difference. -/
theorem normalizeCounters_spec (es : List NameEntry) (hne : es ≠ [])
    (hnn : ∀ e ∈ es, 0 ≤ e.counter) :
    (∀ e ∈ NormalizeCounters es, 0 ≤ e.counter) ∧
      (∃ e ∈ NormalizeCounters es, e.counter = 0) ∧
      (∀ i j, i < es.length → j < es.length →
        ((NormalizeCounters es).getD i dEntry).counter -
            ((NormalizeCounters es).getD j dEntry).counter =
          (es.getD i dEntry).counter - (es.getD j dEntry).counter) := by
  unfold NormalizeCounters
  rw [if_neg hne]
  by_cases hpos : minCounter es > 0
  · rw [if_pos hpos]
    refine ⟨?_, ?_, ?_⟩
    · intro e he
      rcases List.mem_map.mp he with ⟨a, ha, hav⟩
      have := minCounter_le ha
      rw [← hav]
      simpa using this
    · rcases minCounter_attained hne with ⟨e, he, hev⟩
      exact ⟨⟨e.name, e.counter - minCounter es⟩, List.mem_map_of_mem _ he, by
        rw [hev]; ring⟩
    · intro i j hi hj
      have hmap : ∀ k, k < es.length →
          ((es.map (fun e => (⟨e.name, e.counter - minCounter es⟩ : NameEntry))).getD k dEntry).counter
            = (es.getD k dEntry).counter - minCounter es := by
        intro k hk
        rw [List.getD_eq_getElem _ dEntry (by simpa using hk),
          List.getD_eq_getElem es dEntry hk, List.getElem_map]
      rw [hmap i hi, hmap j hj]
      ring
  · rw [if_neg hpos]
    push_neg at hpos
    refine ⟨hnn, ?_, fun i j _ _ => rfl⟩
    rcases minCounter_attained hne with ⟨e, he, hev⟩
    have h0 : 0 ≤ minCounter es := hev ▸ hnn e he
    exact ⟨e, he, hev.trans (le_antisymm hpos h0)⟩

/-- Witness for C3 (amended) at the concrete roster `[B:3, A:1]`. -/
theorem normalizeCounters_spec_witness :
    (∀ e ∈ NormalizeCounters [⟨['B'], 3⟩, ⟨['A'], 1⟩], 0 ≤ e.counter) ∧
      (∃ e ∈ NormalizeCounters [⟨['B'], 3⟩, ⟨['A'], 1⟩], e.counter = 0) ∧
      (∀ i j, i < 2 → j < 2 →
        ((NormalizeCounters [⟨['B'], 3⟩, ⟨['A'], 1⟩]).getD i dEntry).counter -
            ((NormalizeCounters [⟨['B'], 3⟩, ⟨['A'], 1⟩]).getD j dEntry).counter =
          (([⟨['B'], 3⟩, ⟨['A'], 1⟩] : List NameEntry).getD i dEntry).counter -
            (([⟨['B'], 3⟩, ⟨['A'], 1⟩] : List NameEntry).getD j dEntry).counter) :=
  normalizeCounters_spec [⟨['B'], 3⟩, ⟨['A'], 1⟩] (by decide) (by decide)

/-! ## Draw state machine (DrawNextOne / ApplyWinnerAndContinue) -/

/-- The counter commit `g_entries[idx].counter++` of `ApplyWinnerAndContinue`
(gluecksrad.cpp:422-424): bump the counter of the entry at `idx`, leaving
everything else alone. -/
def incrementAt : List NameEntry → Nat → List NameEntry
  | [], _ => []
  | e :: es, 0 => ⟨e.name, e.counter + 1⟩ :: es
  | e :: es, n + 1 => e :: incrementAt es n

/-- Roster effect of `ApplyWinnerAndContinue` (gluecksrad.cpp:422-426):
increment the winner's counter, then `NormalizeCounters`. -/
def ApplyWinnerAndContinue (es : List NameEntry) (idx : Nat) : List NameEntry :=
  NormalizeCounters (incrementAt es idx)

/-- The eligibility retry of `DrawNextOne` (gluecksrad.cpp:449-450):
`elig = EligibleIndices(); if (elig.empty()) { NormalizeCounters(); elig = EligibleIndices(); }`.
Returns the (possibly renormalized) roster together with the pool. -/
def eligRetry (es : List NameEntry) : List NameEntry × List Nat :=
  if EligibleIndices es = [] then
    (NormalizeCounters es, EligibleIndices (NormalizeCounters es))
  else (es, EligibleIndices es)

/-- Batch duplicate avoidance of `DrawNextOne` (gluecksrad.cpp:453-459):
drop the indices already in `g_roundExcludedIdx`; if nothing is left, fall
back to the whole eligible pool (`if (filtered.empty()) filtered = elig`). -/
def filteredPool (elig excluded : List Nat) : List Nat :=
  if elig.filter (fun i => !decide (i ∈ excluded)) = [] then elig
  else elig.filter (fun i => !decide (i ∈ excluded))

/-- `int rollout = std::max(1, (int)(filtered.size() * CFG_SPIN_ROLLOUT_FACTOR))`
(gluecksrad.cpp:472). The factor is a C++ `double`, modelled as `ℚ`; the C++
`(int)` cast truncates toward zero, and under the outer `max 1` the
floor used here agrees with it for every factor (both clamp everything
below `1` to `1`, and truncation equals floor on non-negative values). -/
def rolloutSteps (size : Nat) (factor : ℚ) : Nat :=
  max 1 (Int.toNat ⌊(size : ℚ) * factor⌋)

/-- The rollout loop of `DrawNextOne` (gluecksrad.cpp:475-484), fuel-indexed
so it stays structurally recursive. `steps` is the number of iterations
already completed, `cur` the current position in `filtered`; each iteration
visits `filtered[cur]`, stops once `steps >= rollout` lands on the winner,
and force-appends the winner when `steps >= maxSteps`. Run with
`fuel = maxSteps - steps`; the `maxSteps` cut-off fires before fuel runs out. -/
def rolloutGo (filtered : List Nat) (winner rollout maxSteps : Nat) :
    Nat → Nat → Nat → List Nat
  | 0, _, _ => []
  | fuel + 1, steps, cur =>
    if steps + 1 ≥ rollout ∧ filtered.getD cur 0 = winner then [filtered.getD cur 0]
    else if steps + 1 ≥ maxSteps then [filtered.getD cur 0, winner]
    else filtered.getD cur 0 ::
      rolloutGo filtered winner rollout maxSteps fuel (steps + 1) ((cur + 1) % filtered.length)

/-- Animation-path construction of `DrawNextOne` (gluecksrad.cpp:466-484):
`CFG_SPIN_ROUNDS` full laps over `filtered`, then the rollout walk starting
at offset `start`, with `maxSteps = rollout + 2 * filtered.size()`. -/
def buildPath (filtered : List Nat) (winner rounds rollout start : Nat) : List Nat :=
  (List.replicate rounds filtered).flatten ++
    rolloutGo filtered winner rollout (rollout + 2 * filtered.length)
      (rollout + 2 * filtered.length) 0 start

/-- `DrawNextOne` (gluecksrad.cpp:446-488). The two
`std::uniform_int_distribution` draws (winner pick and rollout start) are
modelled by arbitrary naturals `k` and `start` reduced mod the pool size.
Returns `none` when the function bails out via `EndRoundEarly`, otherwise
the (possibly renormalized) roster, the winner index and the animation path. -/
def DrawNextOne (es : List NameEntry) (excluded : List Nat) (k start rounds : Nat)
    (factor : ℚ) : Option (List NameEntry × Nat × List Nat) :=
  if es = [] then none
  else
    if (eligRetry es).2 = [] then none
    else
      some ((eligRetry es).1,
        (filteredPool (eligRetry es).2 excluded).getD
          (k % (filteredPool (eligRetry es).2 excluded).length) 0,
        buildPath (filteredPool (eligRetry es).2 excluded)
          ((filteredPool (eligRetry es).2 excluded).getD
            (k % (filteredPool (eligRetry es).2 excluded).length) 0)
          rounds (rolloutSteps (filteredPool (eligRetry es).2 excluded).length factor)
          (start % (filteredPool (eligRetry es).2 excluded).length))

section DrawLemmas

lemma eligible_ne_nil {es : List NameEntry} (h : es ≠ []) : EligibleIndices es ≠ [] := by
  rcases minCounter_attained h with ⟨e, he, hev⟩
  rcases List.getElem_of_mem he with ⟨j, hj, hje⟩
  apply List.ne_nil_of_mem (a := j)
  unfold EligibleIndices
  rw [if_neg h]
  refine List.mem_filter.mpr ⟨List.mem_range.mpr hj, ?_⟩
  rw [decide_eq_true_eq, List.getD_eq_getElem es dEntry hj, hje, hev]

lemma eligible_lt_length {es : List NameEntry} {i : Nat} (h : i ∈ EligibleIndices es) :
    i < es.length := by
  unfold EligibleIndices at h
  split at h
  · simp at h
  · exact List.mem_range.mp (List.mem_filter.mp h).1

lemma eligRetry_of_ne {es : List NameEntry} (h : es ≠ []) :
    eligRetry es = (es, EligibleIndices es) := by
  unfold eligRetry
  rw [if_neg (eligible_ne_nil h)]

lemma eligRetry_snd (es : List NameEntry) :
    (eligRetry es).2 = EligibleIndices (eligRetry es).1 := by
  unfold eligRetry
  split <;> rfl

lemma normalizeCounters_length (es : List NameEntry) :
    (NormalizeCounters es).length = es.length := by
  unfold NormalizeCounters
  split
  · rfl
  · split
    · simp
    · rfl

lemma eligRetry_fst_length (es : List NameEntry) :
    (eligRetry es).1.length = es.length := by
  unfold eligRetry
  split
  · exact normalizeCounters_length es
  · rfl

lemma filteredPool_subset {elig excluded : List Nat} {x : Nat}
    (hx : x ∈ filteredPool elig excluded) : x ∈ elig := by
  unfold filteredPool at hx
  split at hx
  · exact hx
  · exact (List.mem_filter.mp hx).1

lemma filteredPool_ne_nil {elig : List Nat} (excluded : List Nat) (h : elig ≠ []) :
    filteredPool elig excluded ≠ [] := by
  unfold filteredPool
  split
  · exact h
  · next hne => exact hne

lemma getD_mod_mem {l : List Nat} (k : Nat) (h : l ≠ []) : l.getD (k % l.length) 0 ∈ l := by
  have hlen : 0 < l.length := List.length_pos.mpr h
  have hk : k % l.length < l.length := Nat.mod_lt k hlen
  rw [List.getD_eq_getElem l 0 hk]
  exact List.getElem_mem hk

lemma incrementAt_getD_self : ∀ (es : List NameEntry) (i : Nat), i < es.length →
    (incrementAt es i).getD i dEntry =
      ⟨(es.getD i dEntry).name, (es.getD i dEntry).counter + 1⟩
  | [], i, h => by simp at h
  | e :: es, 0, _ => rfl
  | e :: es, i + 1, h => by
    have := incrementAt_getD_self es i (by simpa using h)
    simpa [incrementAt, List.getD_cons_succ] using this

lemma incrementAt_getD_ne : ∀ (es : List NameEntry) (i j : Nat), j ≠ i →
    (incrementAt es i).getD j dEntry = es.getD j dEntry
  | [], _, _, _ => rfl
  | _ :: _, 0, 0, h => absurd rfl h
  | _ :: _, 0, _ + 1, _ => by simp [incrementAt, List.getD_cons_succ]
  | _ :: _, _ + 1, 0, _ => rfl
  | e :: es, i + 1, j + 1, h => by
    simpa [incrementAt, List.getD_cons_succ] using
      incrementAt_getD_ne es i j (fun hji => h (by omega))

lemma rolloutGo_subset (filtered : List Nat) (winner rollout maxSteps : Nat)
    (hw : winner ∈ filtered) :
    ∀ fuel steps cur, cur < filtered.length →
      ∀ x ∈ rolloutGo filtered winner rollout maxSteps fuel steps cur, x ∈ filtered := by
  intro fuel
  induction fuel with
  | zero =>
    intro steps cur _ x hx
    simp [rolloutGo] at hx
  | succ n ih =>
    intro steps cur hcur x hx
    have hlen : 0 < filtered.length := Nat.lt_of_le_of_lt (Nat.zero_le cur) hcur
    have hidx : filtered.getD cur 0 ∈ filtered := by
      rw [List.getD_eq_getElem filtered 0 hcur]
      exact List.getElem_mem hcur
    rw [rolloutGo] at hx
    split_ifs at hx with h1 h2
    · have := List.mem_singleton.mp hx
      subst this
      exact hidx
    · rcases List.mem_cons.mp hx with h | h
      · subst h; exact hidx
      · have := List.mem_singleton.mp h
        subst this
        exact hw
    · rcases List.mem_cons.mp hx with h | h
      · subst h; exact hidx
      · exact ih (steps + 1) ((cur + 1) % filtered.length) (Nat.mod_lt _ hlen) x h

lemma rolloutGo_ne_nil (filtered : List Nat) (winner rollout maxSteps : Nat)
    (fuel steps cur : Nat) (hf : 0 < fuel) :
    rolloutGo filtered winner rollout maxSteps fuel steps cur ≠ [] := by
  cases fuel with
  | zero => exact absurd hf (by simp)
  | succ n =>
    rw [rolloutGo]
    split_ifs <;> simp

lemma rolloutGo_getLast (filtered : List Nat) (winner rollout maxSteps : Nat) :
    ∀ fuel steps cur, steps + fuel = maxSteps → 0 < fuel →
      (rolloutGo filtered winner rollout maxSteps fuel steps cur).getLast? = some winner := by
  intro fuel
  induction fuel with
  | zero => intro steps cur _ hf; exact absurd hf (by simp)
  | succ n ih =>
    intro steps cur hms _
    rw [rolloutGo]
    split_ifs with h1 h2
    · rw [h1.2]; rfl
    · rfl
    · have hn : 0 < n := by omega
      have hrec := ih (steps + 1) ((cur + 1) % filtered.length) (by omega) hn
      have hnn := rolloutGo_ne_nil filtered winner rollout maxSteps n (steps + 1)
        ((cur + 1) % filtered.length) hn
      cases hrg : rolloutGo filtered winner rollout maxSteps n (steps + 1)
          ((cur + 1) % filtered.length) with
      | nil => exact absurd hrg hnn
      | cons a l =>
        rw [hrg] at hrec
        rw [List.getLast?_cons_cons]
        exact hrec

lemma rolloutGo_length_ge (filtered : List Nat) (winner rollout maxSteps : Nat) :
    ∀ fuel steps cur, steps + fuel = maxSteps → 0 < fuel → rollout ≤ maxSteps →
      rollout ≤ (rolloutGo filtered winner rollout maxSteps fuel steps cur).length + steps := by
  intro fuel
  induction fuel with
  | zero => intro steps cur _ hf; exact absurd hf (by simp)
  | succ n ih =>
    intro steps cur hms _ hrm
    rw [rolloutGo]
    split_ifs with h1 h2
    · have := h1.1
      simp only [List.length_singleton]
      omega
    · simp only [List.length_cons, List.length_singleton]
      omega
    · by_cases hn : 0 < n
      · have := ih (steps + 1) ((cur + 1) % filtered.length) (by omega) hn hrm
        simp only [List.length_cons]
        omega
      · omega

lemma le_rolloutSteps (size : Nat) (factor : ℚ) : 1 ≤ rolloutSteps size factor :=
  le_max_left 1 _

lemma buildPath_subset {pool : List Nat} {winner rounds rollout start : Nat}
    (hw : winner ∈ pool) (hs : start < pool.length) :
    ∀ x ∈ buildPath pool winner rounds rollout start, x ∈ pool := by
  intro x hx
  unfold buildPath at hx
  rcases List.mem_append.mp hx with h | h
  · rcases List.mem_flatten.mp h with ⟨l, hl, hxl⟩
    rwa [List.eq_of_mem_replicate hl] at hxl
  · exact rolloutGo_subset pool winner _ _ hw _ _ _ hs x h

end DrawLemmas

/-- C1: committing a draw increments exactly one counter by exactly 1.
For every non-empty roster and every random choice, `DrawNextOne` leaves the
roster unchanged and picks a winner `w` that is a member of
`EligibleIndices` of the roster at selection time, and the commit step of
`ApplyWinnerAndContinue` (the `g_entries[idx].counter++` modelled by
`incrementAt`, applied before re-normalization) raises `w`'s counter by
exactly 1 and leaves every other entry untouched. -/
theorem drawNextOne_commit_spec (es : List NameEntry) (excluded : List Nat)
    (k start rounds : Nat) (factor : ℚ) (hne : es ≠ []) :
    ∃ w path,
      DrawNextOne es excluded k start rounds factor = some (es, w, path) ∧
      w ∈ EligibleIndices es ∧
      ApplyWinnerAndContinue es w = NormalizeCounters (incrementAt es w) ∧
      ((incrementAt es w).getD w dEntry).counter = (es.getD w dEntry).counter + 1 ∧
      ((incrementAt es w).getD w dEntry).name = (es.getD w dEntry).name ∧
      (∀ j, j ≠ w → (incrementAt es w).getD j dEntry = es.getD j dEntry) := by
  have helig := eligible_ne_nil hne
  have hretry := eligRetry_of_ne hne
  have hpne : filteredPool (EligibleIndices es) excluded ≠ [] :=
    filteredPool_ne_nil excluded helig
  have hwe : (filteredPool (EligibleIndices es) excluded).getD
      (k % (filteredPool (EligibleIndices es) excluded).length) 0 ∈ EligibleIndices es :=
    filteredPool_subset (getD_mod_mem k hpne)
  have hwlt := eligible_lt_length hwe
  refine ⟨(filteredPool (EligibleIndices es) excluded).getD
      (k % (filteredPool (EligibleIndices es) excluded).length) 0,
    buildPath (filteredPool (EligibleIndices es) excluded)
      ((filteredPool (EligibleIndices es) excluded).getD
        (k % (filteredPool (EligibleIndices es) excluded).length) 0)
      rounds (rolloutSteps (filteredPool (EligibleIndices es) excluded).length factor)
      (start % (filteredPool (EligibleIndices es) excluded).length),
    ?_, hwe, rfl, ?_, ?_, ?_⟩
  · unfold DrawNextOne
    rw [if_neg hne, hretry]
    exact if_neg helig
  · rw [incrementAt_getD_self es _ hwlt]
  · rw [incrementAt_getD_self es _ hwlt]
  · intro j hj
    exact incrementAt_getD_ne es _ j hj

/-- Witness for C1 at the one-entry roster `[A:0]`. -/
theorem drawNextOne_commit_spec_witness :
    ∃ w path,
      DrawNextOne [⟨['A'], 0⟩] [] 0 0 0 1 = some ([⟨['A'], 0⟩], w, path) ∧
      w ∈ EligibleIndices [⟨['A'], 0⟩] ∧
      ApplyWinnerAndContinue [⟨['A'], 0⟩] w = NormalizeCounters (incrementAt [⟨['A'], 0⟩] w) ∧
      ((incrementAt [⟨['A'], 0⟩] w).getD w dEntry).counter =
        (([⟨['A'], 0⟩] : List NameEntry).getD w dEntry).counter + 1 ∧
      ((incrementAt [⟨['A'], 0⟩] w).getD w dEntry).name =
        (([⟨['A'], 0⟩] : List NameEntry).getD w dEntry).name ∧
      (∀ j, j ≠ w →
        (incrementAt [⟨['A'], 0⟩] w).getD j dEntry =
          ([⟨['A'], 0⟩] : List NameEntry).getD j dEntry) :=
  drawNextOne_commit_spec [⟨['A'], 0⟩] [] 0 0 0 1 (by decide)

/-- C4: batch duplicate avoidance. If the winner selected by `DrawNextOne`
was already drawn in this batch (it lies in `excluded`), then every
currently eligible index had already been drawn in the batch — repeats only
happen via the fall-back once the eligible pool is exhausted. -/
theorem drawNextOne_batch_no_repeat (es es' : List NameEntry) (excluded : List Nat)
    (k start rounds : Nat) (factor : ℚ) (w : Nat) (path : List Nat)
    (hdraw : DrawNextOne es excluded k start rounds factor = some (es', w, path))
    (hw : w ∈ excluded) :
    ∀ i ∈ EligibleIndices es', i ∈ excluded := by
  unfold DrawNextOne at hdraw
  by_cases hes : es = []
  · rw [if_pos hes] at hdraw
    cases hdraw
  rw [if_neg hes] at hdraw
  by_cases helig : (eligRetry es).2 = []
  · rw [if_pos helig] at hdraw
    cases hdraw
  rw [if_neg helig] at hdraw
  simp only [Option.some.injEq, Prod.mk.injEq] at hdraw
  obtain ⟨hes', hwin, -⟩ := hdraw
  intro i hi
  have heq : EligibleIndices es' = (eligRetry es).2 := by
    rw [eligRetry_snd es, hes']
  rw [heq] at hi
  by_cases hf : (eligRetry es).2.filter (fun i => !decide (i ∈ excluded)) = []
  · have := List.filter_eq_nil_iff.mp hf i hi
    simpa using this
  · exfalso
    have hwp : w ∈ filteredPool (eligRetry es).2 excluded :=
      hwin ▸ getD_mod_mem k (filteredPool_ne_nil excluded (by
        intro hnil
        exact hf (by rw [hnil]; rfl)))
    unfold filteredPool at hwp
    rw [if_neg hf] at hwp
    have := (List.mem_filter.mp hwp).2
    simp only [Bool.not_eq_true', decide_eq_false_iff_not] at this
    exact this hw

/-- Witness for C4: one-entry roster with its only index already excluded
(the fall-back case), instantiated at the eligible index 0. -/
theorem drawNextOne_batch_no_repeat_witness : (0 : Nat) ∈ ([0] : List Nat) := by
  have h1 : rolloutSteps 1 1 = 1 := by
    unfold rolloutSteps
    norm_num
  have hdraw : DrawNextOne [⟨['A'], 0⟩] [0] 0 0 0 1 = some ([⟨['A'], 0⟩], 0, [0]) := by
    rw [DrawNextOne]
    rw [show filteredPool (eligRetry [⟨['A'], 0⟩]).2 [0] = [0] from by decide]
    rw [show (eligRetry [⟨['A'], 0⟩]).2 = [0] from by decide]
    simp only [List.length_cons, List.length_nil]
    rw [h1]
    decide
  exact drawNextOne_batch_no_repeat [⟨['A'], 0⟩] [⟨['A'], 0⟩] [0] 0 0 0 1 0 [0] hdraw
    (by decide) 0 (by decide)

/-- C10: every index `DrawNextOne` places on the animation path, and the
winner index itself, lies inside `[0, roster.size())`, so the counter
increment and the highlight lookups never index out of range. -/
theorem drawNextOne_indices_in_range (es es' : List NameEntry) (excluded : List Nat)
    (k start rounds : Nat) (factor : ℚ) (w : Nat) (path : List Nat)
    (hdraw : DrawNextOne es excluded k start rounds factor = some (es', w, path)) :
    w < es.length ∧ ∀ i ∈ path, i < es.length := by
  unfold DrawNextOne at hdraw
  by_cases hes : es = []
  · rw [if_pos hes] at hdraw
    cases hdraw
  rw [if_neg hes] at hdraw
  by_cases helig : (eligRetry es).2 = []
  · rw [if_pos helig] at hdraw
    cases hdraw
  rw [if_neg helig] at hdraw
  simp only [Option.some.injEq, Prod.mk.injEq] at hdraw
  obtain ⟨hes', hwin, hpath⟩ := hdraw
  have hpoolne : filteredPool (eligRetry es).2 excluded ≠ [] :=
    filteredPool_ne_nil excluded helig
  have hpoollen : 0 < (filteredPool (eligRetry es).2 excluded).length :=
    List.length_pos.mpr hpoolne
  have hmem_lt : ∀ x ∈ filteredPool (eligRetry es).2 excluded, x < es.length := by
    intro x hx
    have hx2 : x ∈ EligibleIndices (eligRetry es).1 := by
      rw [← eligRetry_snd es]
      exact filteredPool_subset hx
    have := eligible_lt_length hx2
    rwa [eligRetry_fst_length es] at this
  have hwmem : w ∈ filteredPool (eligRetry es).2 excluded :=
    hwin ▸ getD_mod_mem k hpoolne
  refine ⟨hmem_lt w hwmem, ?_⟩
  intro i hi
  rw [← hpath] at hi
  have hwmem2 : (filteredPool (eligRetry es).2 excluded).getD
      (k % (filteredPool (eligRetry es).2 excluded).length) 0
      ∈ filteredPool (eligRetry es).2 excluded := getD_mod_mem k hpoolne
  exact hmem_lt i (buildPath_subset hwmem2 (Nat.mod_lt start hpoollen) i hi)

/-- Witness for C10 at the one-entry roster `[A:0]`. -/
theorem drawNextOne_indices_in_range_witness :
    0 < ([⟨['A'], 0⟩] : List NameEntry).length ∧
      ∀ i ∈ ([0] : List Nat), i < ([⟨['A'], 0⟩] : List NameEntry).length := by
  have h1 : rolloutSteps 1 1 = 1 := by
    unfold rolloutSteps
    norm_num
  have hdraw : DrawNextOne [⟨['A'], 0⟩] [] 0 0 0 1 = some ([⟨['A'], 0⟩], 0, [0]) := by
    rw [DrawNextOne]
    rw [show filteredPool (eligRetry [⟨['A'], 0⟩]).2 [] = [0] from by decide]
    rw [show (eligRetry [⟨['A'], 0⟩]).2 = [0] from by decide]
    simp only [List.length_cons, List.length_nil]
    rw [h1]
    decide
  exact drawNextOne_indices_in_range [⟨['A'], 0⟩] [⟨['A'], 0⟩] [] 0 0 0 1 0 [0] hdraw

/-- C8 (amended): the animation path built by `DrawNextOne` is `rounds`
full laps over the pool followed by a rollout walk of at least
`rolloutSteps |pool| factor = max 1 ⌊|pool| × factor⌋` steps (the C++
truncates the product, it does not take the ceiling the spec claims)
whose last element — and hence the last element of the whole path — is
always the winner index, and path construction always terminates (the
path is a finite list by construction). -/
theorem drawNextOne_path_spec (es es' : List NameEntry) (excluded : List Nat)
    (k start rounds : Nat) (factor : ℚ) (w : Nat) (path : List Nat)
    (hdraw : DrawNextOne es excluded k start rounds factor = some (es', w, path)) :
    ∃ walk,
      path = (List.replicate rounds (filteredPool (EligibleIndices es') excluded)).flatten
          ++ walk ∧
      rolloutSteps (filteredPool (EligibleIndices es') excluded).length factor
          ≤ walk.length ∧
      walk ≠ [] ∧
      walk.getLast? = some w ∧
      path.getLast? = some w := by
  unfold DrawNextOne at hdraw
  by_cases hes : es = []
  · rw [if_pos hes] at hdraw
    cases hdraw
  rw [if_neg hes] at hdraw
  by_cases helig : (eligRetry es).2 = []
  · rw [if_pos helig] at hdraw
    cases hdraw
  rw [if_neg helig] at hdraw
  simp only [Option.some.injEq, Prod.mk.injEq] at hdraw
  obtain ⟨hes', hwin, hpath⟩ := hdraw
  have heq : EligibleIndices es' = (eligRetry es).2 := by
    rw [eligRetry_snd es, hes']
  have hR : 1 ≤ rolloutSteps (filteredPool (eligRetry es).2 excluded).length factor :=
    le_rolloutSteps _ factor
  have hM : 0 < rolloutSteps (filteredPool (eligRetry es).2 excluded).length factor
      + 2 * (filteredPool (eligRetry es).2 excluded).length := by omega
  refine ⟨rolloutGo (filteredPool (eligRetry es).2 excluded)
      ((filteredPool (eligRetry es).2 excluded).getD
        (k % (filteredPool (eligRetry es).2 excluded).length) 0)
      (rolloutSteps (filteredPool (eligRetry es).2 excluded).length factor)
      (rolloutSteps (filteredPool (eligRetry es).2 excluded).length factor
        + 2 * (filteredPool (eligRetry es).2 excluded).length)
      (rolloutSteps (filteredPool (eligRetry es).2 excluded).length factor
        + 2 * (filteredPool (eligRetry es).2 excluded).length)
      0 (start % (filteredPool (eligRetry es).2 excluded).length), ?_, ?_, ?_, ?_, ?_⟩
  · rw [heq, ← hpath]
    rfl
  · rw [heq]
    have := rolloutGo_length_ge (filteredPool (eligRetry es).2 excluded)
      ((filteredPool (eligRetry es).2 excluded).getD
        (k % (filteredPool (eligRetry es).2 excluded).length) 0)
      (rolloutSteps (filteredPool (eligRetry es).2 excluded).length factor)
      (rolloutSteps (filteredPool (eligRetry es).2 excluded).length factor
        + 2 * (filteredPool (eligRetry es).2 excluded).length)
      (rolloutSteps (filteredPool (eligRetry es).2 excluded).length factor
        + 2 * (filteredPool (eligRetry es).2 excluded).length)
      0 (start % (filteredPool (eligRetry es).2 excluded).length) (Nat.zero_add _) hM
      (by omega)
    omega
  · exact rolloutGo_ne_nil _ _ _ _ _ _ _ hM
  · rw [← hwin]
    exact rolloutGo_getLast _ _ _ _ _ _ _ (Nat.zero_add _) hM
  · rw [← hpath]
    unfold buildPath
    rw [List.getLast?_append, ← hwin,
      rolloutGo_getLast _ _ _ _ _ _ _ (Nat.zero_add _) hM]
    rfl

/-- Witness for C8 (amended) at the one-entry roster `[A:0]`. -/
theorem drawNextOne_path_spec_witness :
    ∃ walk,
      ([0] : List Nat) = (List.replicate 0
          (filteredPool (EligibleIndices [⟨['A'], 0⟩]) [])).flatten ++ walk ∧
      rolloutSteps (filteredPool (EligibleIndices [⟨['A'], 0⟩]) []).length 1
          ≤ walk.length ∧
      walk ≠ [] ∧
      walk.getLast? = some 0 ∧
      ([0] : List Nat).getLast? = some 0 := by
  have h1 : rolloutSteps 1 1 = 1 := by
    unfold rolloutSteps
    norm_num
  have hdraw : DrawNextOne [⟨['A'], 0⟩] [] 0 0 0 1 = some ([⟨['A'], 0⟩], 0, [0]) := by
    rw [DrawNextOne]
    rw [show filteredPool (eligRetry [⟨['A'], 0⟩]).2 [] = [0] from by decide]
    rw [show (eligRetry [⟨['A'], 0⟩]).2 = [0] from by decide]
    simp only [List.length_cons, List.length_nil]
    rw [h1]
    decide
  exact drawNextOne_path_spec [⟨['A'], 0⟩] [⟨['A'], 0⟩] [] 0 0 0 1 0 [0] hdraw

/-- C8 counterexample to the "at least ceil(|pool| × rolloutFactor) steps"
clause: with the default rollout factor 1.5 and a pool of 3 entries, the
C++ computes `(int)(3 * 1.5) = 4` rollout steps, so on suitable random
offsets the rollout walk (the path after the `3 × 3` lap steps) has only
4 elements, strictly fewer than `ceil(3 × 1.5) = 5`. -/
theorem drawNextOne_path_ceil_counterexample :
    DrawNextOne [⟨['A'], 0⟩, ⟨['B'], 0⟩, ⟨['C'], 0⟩] [] 0 0 3 (3 / 2)
      = some ([⟨['A'], 0⟩, ⟨['B'], 0⟩, ⟨['C'], 0⟩], 0,
          [0, 1, 2, 0, 1, 2, 0, 1, 2, 0, 1, 2, 0]) ∧
    (([0, 1, 2, 0, 1, 2, 0, 1, 2, 0, 1, 2, 0] : List Nat).drop 9).length
      < Nat.ceil ((3 : ℚ) * (3 / 2)) := by
  constructor
  · have h : rolloutSteps 3 (3 / 2) = 4 := by
      unfold rolloutSteps
      norm_num
      rfl
    rw [DrawNextOne]
    rw [show filteredPool (eligRetry [⟨['A'], 0⟩, ⟨['B'], 0⟩, ⟨['C'], 0⟩]).2 [] = [0, 1, 2]
      from by decide]
    rw [show (eligRetry [⟨['A'], 0⟩, ⟨['B'], 0⟩, ⟨['C'], 0⟩]).2 = [0, 1, 2] from by decide]
    simp only [List.length_cons, List.length_nil]
    rw [h]
    decide
  · have h5 : Nat.ceil ((3 : ℚ) * (3 / 2)) = 5 := by
      rw [Nat.ceil_eq_iff (by norm_num)]
      norm_num
    rw [h5]
    decide

/-! ## CSV codec (LoadCSV / SaveCSV) -/

/-- Characters skipped from the left by `Trim` (gluecksrad.cpp:151):
whitespace plus the byte-order mark. -/
def isTrimLead (c : Char) : Bool :=
  c = ' ' ∨ c = '\t' ∨ c = '\r' ∨ c = '\n' ∨ c = '﻿'

/-- Characters stripped from the right by `Trim` (gluecksrad.cpp:153). -/
def isTrimTrail (c : Char) : Bool :=
  c = ' ' ∨ c = '\t' ∨ c = '\r' ∨ c = '\n'

/-- `Trim` (gluecksrad.cpp:150-155): drop leading whitespace/BOM and
trailing whitespace. -/
def Trim (s : List Char) : List Char :=
  ((s.dropWhile isTrimLead).reverse.dropWhile isTrimTrail).reverse

/-- The `std::getline` loop splitting a stream on newlines
(gluecksrad.cpp:184-188, 204-207), accumulator-based so it stays
structurally recursive; `getline` yields no trailing empty line when the
stream ends in a newline. -/
def splitLinesGo : List Char → List Char → List (List Char)
  | acc, [] => [acc.reverse]
  | acc, c :: rest =>
    if c = '\n' then
      acc.reverse :: (if rest = [] then [] else splitLinesGo [] rest)
    else splitLinesGo (c :: acc) rest

/-- All lines of a character stream, in `std::getline` semantics. -/
def splitLines (s : List Char) : List (List Char) :=
  if s = [] then [] else splitLinesGo [] s

/-- `DetectDelimiter` (gluecksrad.cpp:160-167): count semicolons and commas
in the header line, semicolon wins ties. -/
def DetectDelimiter (line : List Char) : Char :=
  if line.count ',' ≤ line.count ';' then ';' else ','

/-- The whitespace class used by `std::stoi` via `strtol`. -/
def isCxxSpace (c : Char) : Bool :=
  c = ' ' ∨ c = '\t' ∨ c = '\n' ∨ c = '\x0b' ∨ c = '\x0c' ∨ c = '\r'

/-- Decimal value of a digit run, most significant digit first. -/
def digitsVal (l : List Char) : Nat :=
  l.foldl (fun a c => 10 * a + (c.toNat - 48)) 0

/-- `std::stoi` under the `try { ... } catch (...) {}` of
gluecksrad.cpp:197/216, defaulting to 0: skip leading whitespace, read an
optional sign and a decimal digit run; no digits (`invalid_argument`) or a
value outside the `int` range (`out_of_range`) leaves the counter at 0. -/
def stoiOr0 (s : List Char) : Int :=
  let s1 := s.dropWhile isCxxSpace
  let sign : Int := if s1.headD ' ' = '-' then -1 else 1
  let s2 := if s1.headD ' ' = '-' ∨ s1.headD ' ' = '+' then s1.drop 1 else s1
  let digs := s2.takeWhile (fun c => c.isDigit)
  if digs = [] then 0
  else
    let v : Int := sign * (digitsVal digs : Int)
    if v < -(2 ^ 31) ∨ 2 ^ 31 - 1 < v then 0 else v

/-- One data row of `LoadCSV` (gluecksrad.cpp:188-199/207-218): empty lines
are skipped; the name is the first delimiter field, trimmed; the counter is
the second field through `stoiOr0`; rows whose trimmed name is empty,
`"nan"` or `"None"` are dropped. -/
def parseLine (delim : Char) (line : List Char) : Option NameEntry :=
  if line = [] then none
  else
    if Trim (line.takeWhile (fun c => c != delim)) = [] ∨
        Trim (line.takeWhile (fun c => c != delim)) = "nan".toList ∨
        Trim (line.takeWhile (fun c => c != delim)) = "None".toList then none
    else some ⟨Trim (line.takeWhile (fun c => c != delim)),
      stoiOr0 (((line.dropWhile (fun c => c != delim)).drop 1).takeWhile (fun c => c != delim))⟩

/-- The parsing core of `LoadCSV` (gluecksrad.cpp:183-199): the first line
is the header and only feeds the delimiter detection; every further line is
parsed as a data row. -/
def parseCSV (content : List Char) : List NameEntry :=
  ((splitLines content).drop 1).filterMap
    (parseLine (DetectDelimiter ((splitLines content).headD [])))

/-- `LoadCSV` (gluecksrad.cpp:169-220) acting on the roster `g_entries`.
`none` models an unreadable file (both `ifstream` and `_wfopen` fail):
the function returns `false` before touching the roster. A readable file
first runs `g_entries.clear()` and then appends every parsed row, returning
success iff at least one row survived. -/
def LoadCSV (file : Option (List Char)) (prior : List NameEntry) :
    List NameEntry × Bool :=
  match file with
  | none => (prior, false)
  | some content => (parseCSV content, !(parseCSV content).isEmpty)

/-- `std::to_string` digit loop for naturals, fuel-indexed (`fuel ≥ n`
suffices); digits are accumulated least-significant-first into `acc`. -/
def natToStringGo : Nat → Nat → List Char → List Char
  | 0, _, acc => acc
  | _ + 1, 0, acc => acc
  | fuel + 1, n + 1, acc =>
    natToStringGo fuel ((n + 1) / 10) (Nat.digitChar ((n + 1) % 10) :: acc)

/-- Decimal digits of a natural, `std::to_string` style. -/
def natToString (n : Nat) : List Char :=
  if n = 0 then ['0'] else natToStringGo n n []

/-- `std::to_string` on an `int` counter (gluecksrad.cpp:233). -/
def intToString (i : Int) : List Char :=
  if i < 0 then '-' :: natToString i.natAbs else natToString i.toNat

/-- The serialization of `SaveCSV` (gluecksrad.cpp:229-235): UTF-8 BOM,
the literal header `Name;Counter`, then one `name;counter` line per entry,
all lines CRLF-terminated, delimiter always semicolon. -/
def serializeCSV (es : List NameEntry) : List Char :=
  ('﻿' :: ("Name;Counter".toList ++ ['\r', '\n'])) ++
    (es.map (fun e => e.name ++ ';' :: (intToString e.counter ++ ['\r', '\n']))).flatten

/-- Failure injection for `SaveCSV`: whether `_wfopen` on the temp file,
`_wrename`, and `CopyFileW` succeed. -/
structure SaveEnv where
  tmpOpenOk : Bool
  renameOk : Bool
  copyOk : Bool
  deriving DecidableEq

/-- `SaveCSV` (gluecksrad.cpp:222-246), returning the reported flag and the
target file's content afterwards (`none`: the target was `_wremove`d and
never rewritten). The function returns `false` only when the temp file
cannot be opened; the results of `_wrename` and of the fallback `CopyFileW`
are discarded and it returns `true` unconditionally after the temp write. -/
def SaveCSV (env : SaveEnv) (es : List NameEntry) (target : Option (List Char)) :
    Bool × Option (List Char) :=
  if !env.tmpOpenOk then (false, target)
  else if env.renameOk then (true, some (serializeCSV es))
  else if env.copyOk then (true, some (serializeCSV es))
  else (true, none)

/-- C5 (code bug): a readable file yielding zero valid rows (here just a
header line) makes `LoadCSV` report failure with the prior roster already
destroyed — `g_entries.clear()` runs before parsing, so the error path is
not atomic. Only the unreadable-file branch (third conjunct) leaves the
prior roster untouched. -/
theorem loadCSV_error_clears_roster :
    LoadCSV (some ("Name;Counter".toList)) [⟨['A'], 0⟩] = ([], false) ∧
      ([] : List NameEntry) ≠ [⟨['A'], 0⟩] ∧
      LoadCSV none [⟨['A'], 0⟩] = ([⟨['A'], 0⟩], false) := by
  refine ⟨by decide, by decide, rfl⟩

/-- C6 counterexample: with the temp file written but both the rename and
the fallback copy failing, `SaveCSV` still reports success, and the target
no longer holds the serialized roster. -/
theorem saveCSV_success_on_failed_replace :
    (SaveCSV ⟨true, false, false⟩ [⟨['A'], 0⟩] (some ['x'])).1 = true ∧
      (SaveCSV ⟨true, false, false⟩ [⟨['A'], 0⟩] (some ['x'])).2 = none := by
  exact ⟨rfl, rfl⟩

/-- C6 (amended): `SaveCSV` reports failure iff the temporary file cannot
be opened for writing. After a successful temp write it reports success
regardless of the rename/copy outcomes, and the target is guaranteed to
hold the serialized roster only when the rename or the fallback copy
succeeded. -/
theorem saveCSV_failure_spec (env : SaveEnv) (es : List NameEntry)
    (target : Option (List Char)) :
    ((SaveCSV env es target).1 = false ↔ env.tmpOpenOk = false) ∧
      ((env.tmpOpenOk = true ∧ (env.renameOk = true ∨ env.copyOk = true)) →
        (SaveCSV env es target).2 = some (serializeCSV es)) := by
  rcases env with ⟨t, r, c⟩
  rcases t <;> rcases r <;> rcases c <;> simp [SaveCSV]

/-! ## Round-trip support lemmas -/

section ListHelpers

lemma takeWhile_all {p : Char → Bool} :
    ∀ l : List Char, (∀ c ∈ l, p c = true) → l.takeWhile p = l
  | [], _ => rfl
  | c :: l, h => by
    rw [List.takeWhile_cons, if_pos (h c (List.mem_cons_self c l))]
    rw [takeWhile_all l (fun x hx => h x (List.mem_cons_of_mem c hx))]

lemma takeWhile_append_stop {p : Char → Bool} :
    ∀ (l : List Char) (x : Char) (rest : List Char),
      (∀ c ∈ l, p c = true) → p x = false →
      (l ++ x :: rest).takeWhile p = l
  | [], x, rest, _, hx => by
    simp [List.takeWhile_cons, hx]
  | c :: l, x, rest, h, hx => by
    rw [List.cons_append, List.takeWhile_cons, if_pos (h c (List.mem_cons_self c l))]
    rw [takeWhile_append_stop l x rest (fun y hy => h y (List.mem_cons_of_mem c hy)) hx]

lemma dropWhile_append_stop {p : Char → Bool} :
    ∀ (l : List Char) (x : Char) (rest : List Char),
      (∀ c ∈ l, p c = true) → p x = false →
      (l ++ x :: rest).dropWhile p = x :: rest
  | [], x, rest, _, hx => by
    simp [List.dropWhile_cons, hx]
  | c :: l, x, rest, h, hx => by
    rw [List.cons_append, List.dropWhile_cons, if_pos (h c (List.mem_cons_self c l))]
    exact dropWhile_append_stop l x rest (fun y hy => h y (List.mem_cons_of_mem c hy)) hx

lemma filterMap_id_of_forall {f : NameEntry → Option NameEntry} :
    ∀ l : List NameEntry, (∀ x ∈ l, f x = some x) → l.filterMap f = l
  | [], _ => rfl
  | x :: l, h => by
    rw [List.filterMap_cons, h x (List.mem_cons_self x l)]
    rw [filterMap_id_of_forall l (fun y hy => h y (List.mem_cons_of_mem x hy))]

lemma dropWhile_head?_not (p : Char → Bool) :
    ∀ (l : List Char) (x : Char), (l.dropWhile p).head? = some x → p x = false
  | [], x, h => by simp at h
  | c :: l, x, h => by
    rw [List.dropWhile_cons] at h
    by_cases hc : p c
    · rw [if_pos hc] at h
      exact dropWhile_head?_not p l x h
    · rw [if_neg hc] at h
      simp only [List.head?_cons, Option.some.injEq] at h
      subst h
      exact Bool.eq_false_iff.mpr hc

lemma dropWhile_eq_self_of_head {p : Char → Bool} {l : List Char} {x : Char}
    (hh : l.head? = some x) (hx : p x = false) : l.dropWhile p = l := by
  cases l with
  | nil => rfl
  | cons c m =>
    simp only [List.head?_cons, Option.some.injEq] at hh
    subst hh
    rw [List.dropWhile_cons, if_neg (by rw [hx]; exact Bool.false_ne_true)]

lemma dropWhile_getLast?_of_ne_nil (p : Char → Bool) :
    ∀ l : List Char, l.dropWhile p ≠ [] → (l.dropWhile p).getLast? = l.getLast?
  | [], h => rfl
  | c :: l, h => by
    rw [List.dropWhile_cons]
    by_cases hc : p c
    · rw [List.dropWhile_cons, if_pos hc] at h
      rw [if_pos hc, dropWhile_getLast?_of_ne_nil p l h]
      cases l with
      | nil => exact absurd (by rw [List.dropWhile_nil]) h
      | cons d m => rw [List.getLast?_cons_cons]
    · rw [if_neg hc]

end ListHelpers

section TrimLemmas

lemma mem_trim {s : List Char} {x : Char} (h : x ∈ Trim s) : x ∈ s := by
  unfold Trim at h
  rw [List.mem_reverse] at h
  have h2 := (List.dropWhile_sublist (l := (s.dropWhile isTrimLead).reverse)
    (p := isTrimTrail)).mem h
  rw [List.mem_reverse] at h2
  exact (List.dropWhile_sublist (p := isTrimLead)).mem h2

lemma trim_head?_not_lead {s : List Char} {x : Char}
    (h : (Trim s).head? = some x) : isTrimLead x = false := by
  unfold Trim at h
  rw [List.head?_reverse] at h
  have hne : (s.dropWhile isTrimLead).reverse.dropWhile isTrimTrail ≠ [] := by
    intro hnil
    rw [hnil] at h
    simp at h
  rw [dropWhile_getLast?_of_ne_nil isTrimTrail _ hne, List.getLast?_reverse] at h
  exact dropWhile_head?_not isTrimLead s x h

lemma trim_getLast?_not_trail {s : List Char} {x : Char}
    (h : (Trim s).getLast? = some x) : isTrimTrail x = false := by
  unfold Trim at h
  rw [List.getLast?_reverse] at h
  exact dropWhile_head?_not isTrimTrail _ x h

lemma trim_idem (s : List Char) : Trim (Trim s) = Trim s := by
  cases ht : Trim s with
  | nil => rfl
  | cons x xs =>
    have h1 : (x :: xs).head? = some x := rfl
    have hx : isTrimLead x = false := trim_head?_not_lead (s := s) (by rw [ht]; exact h1)
    obtain ⟨y, hy⟩ : ∃ y, (x :: xs).getLast? = some y := by
      cases hl : (x :: xs).getLast? with
      | none => exact absurd (List.getLast?_eq_none_iff.mp hl) (List.cons_ne_nil x xs)
      | some y => exact ⟨y, rfl⟩
    have hy2 : isTrimTrail y = false :=
      trim_getLast?_not_trail (s := s) (by rw [ht]; exact hy)
    have h2 : (x :: xs).reverse.head? = some y := by rw [List.head?_reverse]; exact hy
    unfold Trim
    rw [dropWhile_eq_self_of_head h1 hx, dropWhile_eq_self_of_head h2 hy2,
      List.reverse_reverse]

end TrimLemmas

section DigitLemmas

/-- Reference form of the decimal digit run of a natural number (most
significant digit first), used to reason about `natToStringGo`. -/
def natDigitsSpec : Nat → List Char
  | 0 => []
  | n + 1 => natDigitsSpec ((n + 1) / 10) ++ [Nat.digitChar ((n + 1) % 10)]
decreasing_by exact Nat.div_lt_self (Nat.succ_pos n) (by norm_num)

lemma natToStringGo_spec : ∀ fuel n, n ≤ fuel → ∀ acc,
    natToStringGo fuel n acc = natDigitsSpec n ++ acc := by
  intro fuel
  induction fuel with
  | zero =>
    intro n hn acc
    have h0 : n = 0 := Nat.le_zero.mp hn
    subst h0
    simp [natToStringGo, natDigitsSpec]
  | succ f ih =>
    intro n hn acc
    cases n with
    | zero => simp [natToStringGo, natDigitsSpec]
    | succ m =>
      have hdiv : (m + 1) / 10 ≤ f := by
        have := Nat.div_lt_self (Nat.succ_pos m) (show 1 < 10 by norm_num)
        omega
      rw [natToStringGo, ih ((m + 1) / 10) hdiv, natDigitsSpec, List.append_assoc]
      rfl

lemma natToString_spec (n : Nat) (h : 0 < n) : natToString n = natDigitsSpec n := by
  unfold natToString
  rw [if_neg (by omega), natToStringGo_spec n n le_rfl [], List.append_nil]

lemma digitChar_toNat {d : Nat} (h : d < 10) : (Nat.digitChar d).toNat = 48 + d := by
  interval_cases d <;> rfl

lemma digitChar_isDigit {d : Nat} (h : d < 10) : (Nat.digitChar d).isDigit = true := by
  interval_cases d <;> rfl

lemma natDigitsSpec_digits (n : Nat) : ∀ c ∈ natDigitsSpec n, c.isDigit = true := by
  induction n using Nat.strong_induction_on with
  | _ n ih =>
    cases n with
    | zero =>
      intro c hc
      simp [natDigitsSpec] at hc
    | succ m =>
      intro c hc
      rw [natDigitsSpec] at hc
      rcases List.mem_append.mp hc with h | h
      · exact ih ((m + 1) / 10) (Nat.div_lt_self (Nat.succ_pos m) (by norm_num)) c h
      · rw [List.mem_singleton.mp h]
        exact digitChar_isDigit (Nat.mod_lt _ (by norm_num))

lemma natDigitsSpec_ne_nil (n : Nat) (h : 0 < n) : natDigitsSpec n ≠ [] := by
  cases n with
  | zero => omega
  | succ m =>
    rw [natDigitsSpec]
    simp

lemma digitsVal_natDigitsSpec (n : Nat) :
    ∀ a : Nat, (natDigitsSpec n).foldl (fun a c => 10 * a + (c.toNat - 48)) a
      = a * 10 ^ (natDigitsSpec n).length + n := by
  induction n using Nat.strong_induction_on with
  | _ n ih =>
    cases n with
    | zero =>
      intro a
      simp [natDigitsSpec]
    | succ m =>
      intro a
      have key : ∀ t q r b : Nat, 10 * q + r = m + 1 →
          10 * (b * t + q) + r = b * (t * 10) + (m + 1) := by
        intro t q r b h
        rw [← h]
        ring
      rw [natDigitsSpec, List.foldl_append,
        ih ((m + 1) / 10) (Nat.div_lt_self (Nat.succ_pos m) (by norm_num)) a]
      simp only [List.foldl_cons, List.foldl_nil, List.length_append,
        List.length_singleton]
      rw [digitChar_toNat (Nat.mod_lt _ (by norm_num))]
      have hmod : 48 + (m + 1) % 10 - 48 = (m + 1) % 10 := by omega
      rw [hmod, pow_succ]
      exact key (10 ^ (natDigitsSpec ((m + 1) / 10)).length) ((m + 1) / 10)
        ((m + 1) % 10) a (Nat.div_add_mod (m + 1) 10)

lemma digitsVal_natDigitsSpec_eq (n : Nat) : digitsVal (natDigitsSpec n) = n := by
  unfold digitsVal
  rw [digitsVal_natDigitsSpec n 0]
  simp

lemma isDigit_not_space {c : Char} (h : c.isDigit = true) : isCxxSpace c = false := by
  have hn : ¬ (c = ' ' ∨ c = '\t' ∨ c = '\n' ∨ c = '\x0b' ∨ c = '\x0c' ∨ c = '\r') := by
    rintro (rfl | rfl | rfl | rfl | rfl | rfl) <;> simp at h
  simp [isCxxSpace, hn]

lemma isDigit_ne_of {c : Char} (h : c.isDigit = true) :
    c ≠ ';' ∧ c ≠ ',' ∧ c ≠ '-' ∧ c ≠ '+' ∧ c ≠ '\n' ∧ c ≠ '\r' := by
  refine ⟨?_, ?_, ?_, ?_, ?_, ?_⟩ <;> (rintro rfl; simp at h)

lemma intToString_chars {i : Int} : ∀ c ∈ intToString i, c.isDigit = true ∨ c = '-' := by
  unfold intToString
  split_ifs with hneg
  · intro c hc
    rcases List.mem_cons.mp hc with rfl | hc2
    · right; rfl
    · left
      unfold natToString at hc2
      split_ifs at hc2 with h0
      · rw [List.mem_singleton.mp hc2]
        decide
      · rw [natToStringGo_spec _ _ le_rfl [], List.append_nil] at hc2
        exact natDigitsSpec_digits _ c hc2
  · intro c hc
    left
    unfold natToString at hc
    split_ifs at hc with h0
    · rw [List.mem_singleton.mp hc]
      decide
    · rw [natToStringGo_spec _ _ le_rfl [], List.append_nil] at hc
      exact natDigitsSpec_digits _ c hc

lemma clamp_range (c1 : Prop) [Decidable c1] (v : Int) :
    -(2 ^ 31) ≤ (if c1 then 0 else if v < -(2 ^ 31) ∨ 2 ^ 31 - 1 < v then 0 else v) ∧
      (if c1 then 0 else if v < -(2 ^ 31) ∨ 2 ^ 31 - 1 < v then 0 else v) ≤ 2 ^ 31 - 1 := by
  split_ifs with h1 h2
  · norm_num
  · norm_num
  · push_neg at h2
    exact h2

lemma stoiOr0_range (s : List Char) :
    -(2 ^ 31) ≤ stoiOr0 s ∧ stoiOr0 s ≤ 2 ^ 31 - 1 := by
  unfold stoiOr0
  dsimp only
  exact clamp_range _ _

lemma stoiOr0_digits_cr (digs : List Char) (hne : digs ≠ [])
    (hd : ∀ c ∈ digs, c.isDigit = true)
    (hrange : (digitsVal digs : Int) ≤ 2 ^ 31 - 1) :
    stoiOr0 (digs ++ ['\r']) = (digitsVal digs : Int) := by
  obtain ⟨d, ds, rfl⟩ := List.exists_cons_of_ne_nil hne
  have hd0 : d.isDigit = true := hd d (List.mem_cons_self d ds)
  have hsp : isCxxSpace d = false := isDigit_not_space hd0
  obtain ⟨-, -, hminus, hplus, -, -⟩ := isDigit_ne_of hd0
  have hdw : (d :: ds ++ ['\r']).dropWhile isCxxSpace = d :: ds ++ ['\r'] := by
    rw [List.cons_append, List.dropWhile_cons,
      if_neg (by rw [hsp]; exact Bool.false_ne_true), ← List.cons_append]
  have htw : (d :: ds ++ ['\r']).takeWhile (fun c => c.isDigit) = d :: ds :=
    takeWhile_append_stop (d :: ds) '\r' [] hd (by decide)
  have h0 : (0 : Int) ≤ (digitsVal (d :: ds) : Int) := Int.natCast_nonneg _
  have hcl : ¬ ((digitsVal (d :: ds) : Int) < -(2 ^ 31) ∨
      2 ^ 31 - 1 < (digitsVal (d :: ds) : Int)) := by
    rintro (h | h) <;> omega
  have hsign : ¬ (d = '-' ∨ d = '+') := by
    rintro (h | h)
    · exact hminus h
    · exact hplus h
  have hh : ((d :: ds) ++ ['\r']).headD ' ' = d := by
    rw [List.cons_append]
    rfl
  unfold stoiOr0
  dsimp only
  rw [hdw, hh, if_neg hminus, if_neg hsign, htw,
    if_neg (List.cons_ne_nil d ds), one_mul, if_neg hcl]

lemma stoiOr0_neg_digits_cr (digs : List Char) (hne : digs ≠ [])
    (hd : ∀ c ∈ digs, c.isDigit = true)
    (hrange : (digitsVal digs : Int) ≤ 2 ^ 31) :
    stoiOr0 ('-' :: (digs ++ ['\r'])) = -(digitsVal digs : Int) := by
  obtain ⟨d, ds, rfl⟩ := List.exists_cons_of_ne_nil hne
  have htw : (d :: ds ++ ['\r']).takeWhile (fun c => c.isDigit) = d :: ds :=
    takeWhile_append_stop (d :: ds) '\r' [] hd (by decide)
  have hdw : ('-' :: (d :: ds ++ ['\r'])).dropWhile isCxxSpace
      = '-' :: (d :: ds ++ ['\r']) := by
    rw [List.dropWhile_cons, if_neg (by simp [isCxxSpace])]
  have h0 : (0 : Int) ≤ (digitsVal (d :: ds) : Int) := Int.natCast_nonneg _
  have hcl : ¬ (-(digitsVal (d :: ds) : Int) < -(2 ^ 31) ∨
      2 ^ 31 - 1 < -(digitsVal (d :: ds) : Int)) := by
    rintro (h | h) <;> omega
  have hpos1 : ('-' : Char) = '-' := rfl
  have hpos2 : ('-' : Char) = '-' ∨ ('-' : Char) = '+' := Or.inl rfl
  have hdrop : ('-' :: ((d :: ds) ++ ['\r'])).drop 1 = (d :: ds) ++ ['\r'] := rfl
  unfold stoiOr0
  dsimp only
  rw [hdw, List.headD_cons, if_pos hpos1, if_pos hpos2, hdrop, htw,
    if_neg (List.cons_ne_nil d ds), neg_one_mul, if_neg hcl]

lemma stoiOr0_intToString (c : Int) (h1 : -(2 ^ 31) ≤ c) (h2 : c ≤ 2 ^ 31 - 1) :
    stoiOr0 (intToString c ++ ['\r']) = c := by
  unfold intToString
  split_ifs with hneg
  · have habs : 0 < c.natAbs := by omega
    rw [natToString_spec _ habs, List.cons_append]
    have hval : (digitsVal (natDigitsSpec c.natAbs) : Int) ≤ 2 ^ 31 := by
      rw [digitsVal_natDigitsSpec_eq]
      omega
    rw [stoiOr0_neg_digits_cr _ (natDigitsSpec_ne_nil _ habs) (natDigitsSpec_digits _) hval]
    rw [digitsVal_natDigitsSpec_eq]
    omega
  · by_cases h0 : c = 0
    · subst h0
      decide
    · have hpos : 0 < c.toNat := by omega
      rw [natToString_spec _ hpos]
      have hval : (digitsVal (natDigitsSpec c.toNat) : Int) ≤ 2 ^ 31 - 1 := by
        rw [digitsVal_natDigitsSpec_eq]
        omega
      rw [stoiOr0_digits_cr _ (natDigitsSpec_ne_nil _ hpos) (natDigitsSpec_digits _) hval]
      rw [digitsVal_natDigitsSpec_eq]
      omega

end DigitLemmas

section RoundTrip

/-- Shape of every entry `parseCSV` can produce: a non-empty, non-sentinel,
trimmed, newline-free name and an `int`-range counter. -/
def WFEntry (e : NameEntry) : Prop :=
  e.name ≠ [] ∧ e.name ≠ "nan".toList ∧ e.name ≠ "None".toList ∧
    Trim e.name = e.name ∧ '\n' ∉ e.name ∧
    -(2 ^ 31) ≤ e.counter ∧ e.counter ≤ 2 ^ 31 - 1

lemma splitLinesGo_no_newline :
    ∀ (s acc : List Char), '\n' ∉ acc → ∀ l ∈ splitLinesGo acc s, '\n' ∉ l
  | [], acc, hacc, l, hl => by
    simp only [splitLinesGo, List.mem_singleton] at hl
    subst hl
    simpa using hacc
  | c :: rest, acc, hacc, l, hl => by
    simp only [splitLinesGo] at hl
    split_ifs at hl with hc hrest
    · rcases List.mem_cons.mp hl with rfl | hl2
      · simpa using hacc
      · simp at hl2
    · rcases List.mem_cons.mp hl with rfl | hl2
      · simpa using hacc
      · exact splitLinesGo_no_newline rest [] (by simp) l hl2
    · refine splitLinesGo_no_newline rest (c :: acc) ?_ l hl
      intro hmem
      rcases List.mem_cons.mp hmem with h | h
      · exact hc h.symm
      · exact hacc h

lemma splitLines_no_newline {s : List Char} : ∀ l ∈ splitLines s, '\n' ∉ l := by
  intro l hl
  unfold splitLines at hl
  split_ifs at hl with h
  · simp at hl
  · exact splitLinesGo_no_newline s [] (by simp) l hl

lemma parseLine_wf {delim : Char} {line : List Char} {e : NameEntry}
    (h : parseLine delim line = some e) (hnl : '\n' ∉ line) : WFEntry e := by
  unfold parseLine at h
  split_ifs at h with h1 h2
  try cases h
  push_neg at h2
  obtain ⟨hA, hB, hC⟩ := h2
  refine ⟨hA, hB, hC, trim_idem _, ?_, (stoiOr0_range _).1, (stoiOr0_range _).2⟩
  intro hmem
  exact hnl ((List.takeWhile_sublist _).mem (mem_trim hmem))

lemma parseCSV_wf (content : List Char) : ∀ e ∈ parseCSV content, WFEntry e := by
  intro e he
  unfold parseCSV at he
  rcases List.mem_filterMap.mp he with ⟨line, hline, hparse⟩
  exact parseLine_wf hparse (splitLines_no_newline line (List.mem_of_mem_drop hline))

lemma splitLinesGo_append :
    ∀ (l : List Char), '\n' ∉ l → ∀ (acc rest : List Char),
      splitLinesGo acc (l ++ '\n' :: rest) =
        (acc.reverse ++ l) :: (if rest = [] then [] else splitLinesGo [] rest)
  | [], _, acc, rest => by
    simp [splitLinesGo]
  | c :: l, hnl, acc, rest => by
    have hc : ¬ (c = '\n') := fun h => hnl (h ▸ List.mem_cons_self c l)
    have hl : '\n' ∉ l := fun hm => hnl (List.mem_cons_of_mem c hm)
    rw [List.cons_append]
    simp only [splitLinesGo]
    rw [if_neg hc, splitLinesGo_append l hl (c :: acc) rest]
    simp [List.append_assoc]

lemma serializeCSV_decomp (r : List NameEntry) :
    serializeCSV r = ('﻿' :: ("Name;Counter".toList ++ ['\r'])) ++ '\n' ::
      (r.map (fun e => e.name ++ ';' :: (intToString e.counter ++ ['\r', '\n']))).flatten := by
  unfold serializeCSV
  simp [List.append_assoc]

lemma newline_not_mem_row (e : NameEntry) (hn : '\n' ∉ e.name) :
    '\n' ∉ e.name ++ ';' :: (intToString e.counter ++ ['\r']) := by
  intro hmem
  rcases List.mem_append.mp hmem with h | h
  · exact hn h
  · rcases List.mem_cons.mp h with h | h
    · exact absurd h (by decide)
    · rcases List.mem_append.mp h with h | h
      · rcases intToString_chars _ h with hd | hd
        · exact absurd hd (by decide)
        · exact absurd hd (by decide)
      · exact absurd (List.mem_singleton.mp h) (by decide)

lemma rows_split :
    ∀ (r : List NameEntry), (∀ e ∈ r, '\n' ∉ e.name) →
      (if (r.map (fun e => e.name ++ ';' :: (intToString e.counter ++ ['\r', '\n']))).flatten = []
        then ([] : List (List Char))
        else splitLinesGo []
          (r.map (fun e => e.name ++ ';' :: (intToString e.counter ++ ['\r', '\n']))).flatten) =
        r.map (fun e => e.name ++ ';' :: (intToString e.counter ++ ['\r']))
  | [], _ => by simp
  | e :: r, h => by
    have hrow : '\n' ∉ e.name ++ ';' :: (intToString e.counter ++ ['\r']) :=
      newline_not_mem_row e (h e (List.mem_cons_self e r))
    have key : (e.name ++ ';' :: (intToString e.counter ++ ['\r', '\n'])) ++
        (r.map (fun e => e.name ++ ';' :: (intToString e.counter ++ ['\r', '\n']))).flatten =
        (e.name ++ ';' :: (intToString e.counter ++ ['\r'])) ++
        '\n' :: (r.map (fun e => e.name ++ ';' :: (intToString e.counter ++ ['\r', '\n']))).flatten := by
      simp [List.append_assoc]
    rw [List.map_cons, List.flatten_cons, key]
    rw [if_neg (by simp)]
    rw [splitLinesGo_append _ hrow [] _]
    rw [rows_split r (fun x hx => h x (List.mem_cons_of_mem e hx))]
    simp

lemma splitLines_serializeCSV (r : List NameEntry) (h : ∀ e ∈ r, '\n' ∉ e.name) :
    splitLines (serializeCSV r) =
      ('﻿' :: ("Name;Counter".toList ++ ['\r'])) ::
        r.map (fun e => e.name ++ ';' :: (intToString e.counter ++ ['\r'])) := by
  rw [serializeCSV_decomp]
  unfold splitLines
  rw [if_neg (by simp)]
  rw [splitLinesGo_append _ (by decide) [] _]
  rw [rows_split r h]
  simp

lemma parseLine_row (e : NameEntry) (hwf : WFEntry e) (hsemi : ';' ∉ e.name) :
    parseLine ';' (e.name ++ ';' :: (intToString e.counter ++ ['\r'])) = some e := by
  obtain ⟨hnn, hnan, hnone, htrim, hnl, hlo, hhi⟩ := hwf
  have hpall : ∀ c ∈ e.name, (c != ';') = true := by
    intro c hc
    exact bne_iff_ne.mpr (fun hcs => hsemi (hcs ▸ hc))
  have hpsemi : ((';' : Char) != ';') = false := by decide
  have hne2 : e.name ++ ';' :: (intToString e.counter ++ ['\r']) ≠ [] := by simp
  have hsent : ¬ (e.name = [] ∨ e.name = "nan".toList ∨ e.name = "None".toList) := by
    rintro (h | h | h)
    exacts [hnn h, hnan h, hnone h]
  have halldig : ∀ c ∈ intToString e.counter ++ ['\r'], (c != ';') = true := by
    intro c hc
    rcases List.mem_append.mp hc with h | h
    · rcases intToString_chars _ h with hd | hd
      · exact bne_iff_ne.mpr (isDigit_ne_of hd).1
      · subst hd
        decide
    · rw [List.mem_singleton.mp h]
      decide
  unfold parseLine
  rw [if_neg hne2, takeWhile_append_stop e.name ';' _ hpall hpsemi, htrim,
    if_neg hsent, dropWhile_append_stop e.name ';' _ hpall hpsemi]
  rw [show ((';' :: (intToString e.counter ++ ['\r'])).drop 1)
      = intToString e.counter ++ ['\r'] from rfl]
  rw [takeWhile_all _ halldig, stoiOr0_intToString e.counter hlo hhi]

lemma parseCSV_serializeCSV (r : List NameEntry)
    (h : ∀ e ∈ r, WFEntry e ∧ ';' ∉ e.name) :
    parseCSV (serializeCSV r) = r := by
  unfold parseCSV
  rw [splitLines_serializeCSV r (fun e he => (h e he).1.2.2.2.2.1)]
  simp only [List.headD_cons, List.drop_succ_cons, List.drop_zero]
  rw [show DetectDelimiter ('﻿' :: ("Name;Counter".toList ++ ['\r'])) = ';' from by decide]
  rw [List.filterMap_map]
  exact filterMap_id_of_forall r (fun e he => parseLine_row e (h e he).1 (h e he).2)

end RoundTrip

/-- C7 (amended): serialize-then-parse over the roster produced by `parseCSV`
preserves every retained row's name and counter, provided no retained name
contains a semicolon. (`SaveCSV` always writes semicolon-delimited rows, so
a name that captured a `;` from a comma-delimited input file is split at
that semicolon on re-parse and does not round-trip.) -/
theorem serialize_parse_roundtrip (content : List Char)
    (hsemi : ∀ e ∈ parseCSV content, ';' ∉ e.name) :
    parseCSV (serializeCSV (parseCSV content)) = parseCSV content :=
  parseCSV_serializeCSV (parseCSV content)
    (fun e he => ⟨parseCSV_wf content e he, hsemi e he⟩)

/-- Witness for C7 (amended) on a two-row semicolon-delimited file. -/
theorem serialize_parse_roundtrip_witness :
    parseCSV (serializeCSV (parseCSV ("Name;Counter\nAlice;2\nBob;0\n".toList)))
      = parseCSV ("Name;Counter\nAlice;2\nBob;0\n".toList) :=
  serialize_parse_roundtrip ("Name;Counter\nAlice;2\nBob;0\n".toList) (by decide)

/-- C7 counterexample: the comma-delimited file `Name,Counter / a;b,5` is
parsed to the single entry `(name "a;b", counter 5)`, but serializing always
uses semicolons, so re-parsing splits the name at its `;` and yields
`(name "a", counter 0)` — the round-trip does not preserve the retained row. -/
theorem serialize_parse_roundtrip_counterexample :
    parseCSV (serializeCSV (parseCSV ("Name,Counter\na;b,5\n".toList)))
      ≠ parseCSV ("Name,Counter\na;b,5\n".toList) := by
  decide

/-! ## Batch bookkeeping and the FinishRound summary (C9) -/

/-- `std::set<int>::insert`, with the set kept as the sorted duplicate-free
list in which a `std::set` iterates its elements. -/
def setInsert : List Nat → Nat → List Nat
  | [], i => [i]
  | x :: xs, i =>
    if i < x then i :: x :: xs
    else if i = x then x :: xs
    else x :: setInsert xs i

/-- Batch state: the roster plus `g_roundSelectedIdx`, `g_roundExcludedIdx`
and — as specification-only ghost data — the winners in draw order. -/
structure BatchState where
  entries : List NameEntry
  selected : List Nat
  excluded : List Nat
  drawSeq : List Nat
  deriving DecidableEq

/-- One committed draw of the batch loop: `DrawNextOne` picks the winner,
the end of the scan animation inserts it into `g_roundSelectedIdx` and
`g_roundExcludedIdx` (gluecksrad.cpp:377-378), and `ApplyWinnerAndContinue`
commits the counter (gluecksrad.cpp:422-425). -/
def drawStep (st : BatchState) (k start rounds : Nat) (factor : ℚ) :
    Option BatchState :=
  match DrawNextOne st.entries st.excluded k start rounds factor with
  | none => none
  | some (es, w, _) =>
    some ⟨ApplyWinnerAndContinue es w, setInsert st.selected w,
      setInsert st.excluded w, st.drawSeq ++ [w]⟩

/-- A whole batch from a fresh `DrawBatch` (`OnDrawClicked`,
gluecksrad.cpp:528-529, clears both index sets), with one `(k, start)`
random pair per draw. -/
def runBatch (es : List NameEntry) (ks : List (Nat × Nat)) (rounds : Nat)
    (factor : ℚ) : Option BatchState :=
  ks.foldl (fun acc p => match acc with
    | none => none
    | some st => drawStep st p.1 p.2 rounds factor)
    (some ⟨es, [], [], []⟩)

/-- The batch summary of `FinishRound` (gluecksrad.cpp:499-506): iterate
`g_roundSelectedIdx` — a `std::set`, hence ascending index order — and
collect the entries' names. -/
def FinishRoundSummary (st : BatchState) : List (List Char) :=
  st.selected.map (fun i => (st.entries.getD i dEntry).name)

section BatchLemmas

lemma mem_setInsert : ∀ (s : List Nat) (i x : Nat), x ∈ setInsert s i ↔ x = i ∨ x ∈ s
  | [], i, x => by simp [setInsert]
  | y :: ys, i, x => by
    unfold setInsert
    split_ifs with h1 h2
    · simp [or_comm, or_assoc, List.mem_cons]
    · subst h2
      simp [List.mem_cons]
    · rw [List.mem_cons, List.mem_cons, mem_setInsert ys i x]
      tauto

lemma setInsert_sorted : ∀ {s : List Nat}, s.Sorted (· < ·) →
    ∀ i, (setInsert s i).Sorted (· < ·)
  | [], _, i => by simp [setInsert]
  | y :: ys, hs, i => by
    rw [List.sorted_cons] at hs
    obtain ⟨hy, hys⟩ := hs
    unfold setInsert
    split_ifs with h1 h2
    · rw [List.sorted_cons]
      refine ⟨?_, by rw [List.sorted_cons]; exact ⟨hy, hys⟩⟩
      intro b hb
      rcases List.mem_cons.mp hb with rfl | hb2
      · exact h1
      · exact lt_trans h1 (hy b hb2)
    · rw [List.sorted_cons]
      exact ⟨hy, hys⟩
    · rw [List.sorted_cons]
      refine ⟨?_, setInsert_sorted hys i⟩
      intro b hb
      rcases (mem_setInsert ys i b).mp hb with rfl | hb2
      · omega
      · exact hy b hb2

lemma drawStep_inv {st st2 : BatchState} {k start rounds : Nat} {factor : ℚ}
    (h : drawStep st k start rounds factor = some st2)
    (hsort : st.selected.Sorted (· < ·))
    (hmem : ∀ i, i ∈ st.selected ↔ i ∈ st.drawSeq) :
    st2.selected.Sorted (· < ·) ∧ ∀ i, i ∈ st2.selected ↔ i ∈ st2.drawSeq := by
  unfold drawStep at h
  cases hd : DrawNextOne st.entries st.excluded k start rounds factor with
  | none =>
    rw [hd] at h
    cases h
  | some v =>
    obtain ⟨es, w, path⟩ := v
    rw [hd] at h
    simp only [Option.some.injEq] at h
    subst h
    refine ⟨setInsert_sorted hsort w, ?_⟩
    intro i
    simp only [mem_setInsert, List.mem_append, List.mem_singleton, hmem i]
    tauto

lemma foldl_drawStep_none (rounds : Nat) (factor : ℚ) :
    ∀ ks : List (Nat × Nat),
      ks.foldl (fun acc p => match acc with
        | none => none
        | some st => drawStep st p.1 p.2 rounds factor) none = none
  | [] => rfl
  | _ :: ks => foldl_drawStep_none rounds factor ks

lemma foldl_drawStep_inv (rounds : Nat) (factor : ℚ) :
    ∀ (ks : List (Nat × Nat)) (st st2 : BatchState),
      ks.foldl (fun acc p => match acc with
        | none => none
        | some st => drawStep st p.1 p.2 rounds factor) (some st) = some st2 →
      st.selected.Sorted (· < ·) →
      (∀ i, i ∈ st.selected ↔ i ∈ st.drawSeq) →
      st2.selected.Sorted (· < ·) ∧ ∀ i, i ∈ st2.selected ↔ i ∈ st2.drawSeq
  | [], st, st2, h, hsort, hmem => by
    simp only [List.foldl_nil, Option.some.injEq] at h
    subst h
    exact ⟨hsort, hmem⟩
  | p :: ks, st, st2, h, hsort, hmem => by
    rw [List.foldl_cons] at h
    dsimp only at h
    cases hd : drawStep st p.1 p.2 rounds factor with
    | none =>
      rw [hd] at h
      rw [foldl_drawStep_none rounds factor ks] at h
      cases h
    | some st1 =>
      rw [hd] at h
      obtain ⟨hs1, hm1⟩ := drawStep_inv hd hsort hmem
      exact foldl_drawStep_inv rounds factor ks st1 st2 h hs1 hm1

end BatchLemmas

/-- C9 counterexample: roster `[A:1, B:0]`, batch of two draws. The first
draw must pick B (the only minimum), the second picks A; the draw order is
B, A, but `FinishRound` iterates the `std::set g_roundSelectedIdx` in
ascending index order and emits A, B — not the draw order. -/
theorem finishRound_summary_counterexample :
    (runBatch [⟨['A'], 1⟩, ⟨['B'], 0⟩] [(0, 0), (0, 0)] 0 1).isSome = true ∧
      (runBatch [⟨['A'], 1⟩, ⟨['B'], 0⟩] [(0, 0), (0, 0)] 0 1).map FinishRoundSummary
        ≠ (runBatch [⟨['A'], 1⟩, ⟨['B'], 0⟩] [(0, 0), (0, 0)] 0 1).map
            (fun st => st.drawSeq.map (fun i => (st.entries.getD i dEntry).name)) := by
  constructor
  · decide
  · decide

/-- C9 (amended): at batch completion the summary emitted by `FinishRound`
lists each distinct winner's name exactly once, in ascending roster-index
order (the iteration order of `std::set g_roundSelectedIdx`) — not in draw
order: the summarized index set is strictly sorted and holds exactly the
indices that were drawn. -/
theorem finishRound_summary_spec (es : List NameEntry) (ks : List (Nat × Nat))
    (rounds : Nat) (factor : ℚ) (st : BatchState)
    (h : runBatch es ks rounds factor = some st) :
    st.selected.Sorted (· < ·) ∧
      (∀ i, i ∈ st.selected ↔ i ∈ st.drawSeq) ∧
      FinishRoundSummary st = st.selected.map (fun i => (st.entries.getD i dEntry).name) := by
  unfold runBatch at h
  obtain ⟨hs, hm⟩ := foldl_drawStep_inv rounds factor ks ⟨es, [], [], []⟩ st h
    (by simp) (by simp)
  exact ⟨hs, hm, rfl⟩

/-- Witness for C9 (amended): a one-draw batch on the roster `[A:0]`. -/
theorem finishRound_summary_spec_witness :
    (([0] : List Nat).Sorted (· < ·) ∧
      (∀ i, i ∈ ([0] : List Nat) ↔ i ∈ ([0] : List Nat)) ∧
      FinishRoundSummary ⟨[⟨['A'], 0⟩], [0], [0], [0]⟩ =
        ([0] : List Nat).map
          (fun i => (([⟨['A'], 0⟩] : List NameEntry).getD i dEntry).name)) :=
  finishRound_summary_spec [⟨['A'], 0⟩] [(0, 0)] 0 1 ⟨[⟨['A'], 0⟩], [0], [0], [0]⟩
    (by decide)

end Gluecksrad
